import Mathlib

/-!
# LibAFL-FrameShift: verification of the structured-buffer core

Shallow embedding of the FrameShift core (`src/frameshift_afl/src/core/structured.rs`,
`src/frameshift_afl/src/core/search.rs`, `src/frameshift_afl/src/components/structured_input.rs`).

Modelling conventions:
* `usize` / `u64` values are modelled as unbounded `Nat`.  Arithmetic overflow of the
  machine words themselves (sums reaching `2 ^ 64`, which panic in debug builds) is not
  modelled; the explicit field-width overflow check of `on_insert` (`value > max_val`)
  is modelled exactly.  All subtractions in the source are guarded and stay guarded here.
* Rust panics that are reachable through the modelled control flow are modelled as
  `Option.none`: `panic!("Unsupported size")` in `Relation::on_insert` / `Relation::apply`,
  the `assert!(min <= max)` inside `usize::clamp` used by `Relation::on_remove`,
  out-of-range `Vec::splice` / `Vec::drain` / `Vec::swap_remove`, and out-of-range
  indexing in `Relation::apply`.
* A Rust method that mutates `self` and returns `Result<(),()>` is modelled as a pure
  function returning `Option (Bool × _)`: `none` = panic, `some (true, x)` = `Ok(())`
  with post-state `x`, `some (false, x)` = `Err(())` with post-state `x` (the source
  can leave a partially updated post-state on `Err`, which is exactly what the claims
  about atomicity are about).
* File-system interaction of `StructuredInput::from_file` is modelled by passing the
  observable outcomes (sidecar present/absent, parse success/failure) as parameters.
-/

/-- One inferred length/offset field, mirroring `struct Relation`
(`structured.rs` lines 206-223), including the one-slot backup fields. -/
structure Relation where
  pos : Nat
  value : Nat
  size : Nat
  le : Bool
  anchor : Nat
  insert : Nat
  enabled : Bool
  old_pos : Nat
  old_anchor : Nat
  old_insert : Nat
  old_value : Nat
deriving Repr, DecidableEq, Inhabited

/-- `Relation::new` (`structured.rs` lines 227-241). -/
def Relation.new (pos value size : Nat) (le : Bool) (anchor ins : Nat) : Relation :=
  { pos := pos
    value := value
    size := size
    le := le
    anchor := anchor
    insert := ins
    enabled := true
    old_pos := pos
    old_anchor := anchor
    old_insert := ins
    old_value := value }

/-- The `max_val` table of `Relation::on_insert` (`structured.rs` lines 254-261);
`none` models the `panic!("Unsupported size")` arm. -/
def maxVal : Nat → Option Nat
  | 1 => some 0xff
  | 2 => some 0xffff
  | 3 => some 0xffffff
  | 4 => some 0xffffffff
  | 8 => some 0xffffffffffffffff
  | _ => none

/-- The three positional shifts at the end of `Relation::on_insert`
(`structured.rs` lines 268-282): move `pos` when `idx <= pos`, `anchor` when
`idx < anchor`, `insert` when `idx <= insert`. -/
def Relation.moveFields (r : Relation) (idx n : Nat) : Relation :=
  { r with
    pos := if idx ≤ r.pos then r.pos + n else r.pos
    anchor := if idx < r.anchor then r.anchor + n else r.anchor
    insert := if idx ≤ r.insert then r.insert + n else r.insert }

/-- `Relation::on_insert` (`structured.rs` lines 243-285).
`none` = the unsupported-size panic; `some (false, r')` = `Err(())` with post-state
`r'` (note the overflow arm returns after `value` was already incremented);
`some (true, r')` = `Ok(())`. -/
def Relation.on_insert (r : Relation) (idx n : Nat) : Option (Bool × Relation) :=
  if r.pos < idx ∧ idx < r.pos + r.size then
    some (false, r)
  else if r.anchor ≤ idx ∧ idx ≤ r.insert then
    match maxVal r.size with
    | none => none
    | some m =>
      if r.value + n > m then some (false, { r with value := r.value + n })
      else some (true, Relation.moveFields { r with value := r.value + n } idx n)
  else
    some (true, r.moveFields idx n)

/-- Rust `usize::clamp` (used at `structured.rs` lines 311-312): asserts
`lo ≤ hi` (else panic, modelled as `none`), then clamps. -/
def clampRust (x lo hi : Nat) : Option Nat :=
  if lo ≤ hi then some (max lo (min x hi)) else none

/-- `Relation::on_remove` (`structured.rs` lines 287-330).  The Rust locals
`pre_pos`, `pre_anchor`, `pre_insert` and `overlap = overlap_max - overlap_min`
are inlined at their use sites.  Both `Err` arms return before any field is
written, so the `Err` post-state is `r` itself. -/
def Relation.on_remove (r : Relation) (idx n : Nat) : Option (Bool × Relation) :=
  if idx < r.pos + r.size ∧ idx + n > r.pos then
    some (false, r)
  else
    match clampRust idx r.anchor r.insert, clampRust (idx + n) r.anchor r.insert with
    | some omin, some omax =>
      if omax - omin > r.value then some (false, r)
      else
        some (true,
          { r with
            value := r.value - (omax - omin)
            pos := r.pos - (if idx < r.pos then min (r.pos - idx) n else 0)
            anchor := r.anchor - (if idx < r.anchor then min (r.anchor - idx) n else 0)
            insert := r.insert - (if idx < r.insert then min (r.insert - idx) n else 0) })
    | _, _ => none

/-- Little-endian byte list of `v`, `k` bytes (each entry already reduced mod 256).
Mirrors `to_le_bytes` composed with the width casts in `Relation::apply`. -/
def leBytes : Nat → Nat → List Nat
  | _, 0 => []
  | v, k + 1 => (v % 256) :: leBytes (v / 256) k

/-- Big-endian byte list: the reverse of the little-endian one.  This agrees with
`to_be_bytes` and with the 3-byte slices `[0..3]` / `[1..4]` used in `Relation::apply`. -/
def beBytes (v k : Nat) : List Nat :=
  (leBytes v k).reverse

/-- The `byt` computed by the `match (&self.size, &self.le)` in `Relation::apply`
(`structured.rs` lines 334-345); `none` models the unsupported-size panic. -/
def Relation.relBytes (r : Relation) : Option (List Nat) :=
  match r.size, r.le with
  | 1, _ => some (leBytes r.value 1)
  | 2, true => some (leBytes r.value 2)
  | 2, false => some (beBytes r.value 2)
  | 3, true => some (leBytes r.value 3)
  | 3, false => some (beBytes r.value 3)
  | 4, true => some (leBytes r.value 4)
  | 4, false => some (beBytes r.value 4)
  | 8, true => some (leBytes r.value 8)
  | 8, false => some (beBytes r.value 8)
  | _, _ => none

/-- Overwrite `buf[p .. p + byt.length]` with `byt` (the write loop of
`Relation::apply`, lines 347-349). -/
def writeAt (buf : List Nat) (p : Nat) (byt : List Nat) : List Nat :=
  buf.take p ++ byt ++ buf.drop (p + byt.length)

/-- `Relation::apply` (`structured.rs` lines 332-350): serialise `value` into
`input[pos .. pos+size]`; `none` models the unsupported-size panic and the
out-of-bounds indexing panic. -/
def Relation.apply (r : Relation) (buf : List Nat) : Option (List Nat) :=
  (r.relBytes).bind fun byt =>
    if r.pos + r.size ≤ buf.length then some (writeAt buf r.pos byt) else none

/-- Little-endian decoding of a byte list (each byte taken mod 256 on encode,
so entries are already < 256 for encoded lists). -/
def decodeLE : List Nat → Nat
  | [] => 0
  | b :: rest => b % 256 + 256 * decodeLE rest

/-- Decode a byte slice in the given endianness (`le = true` is little-endian),
mirroring the `u*::from_le_bytes` / `from_be_bytes` decoders used by the search. -/
def decodeBytes (le : Bool) (bytes : List Nat) : Nat :=
  if le then decodeLE bytes else decodeLE bytes.reverse

/-- `Structured` (`structured.rs` lines 6-10): raw bytes plus the relation list. -/
structure Structured where
  raw : List Nat
  relations : List Relation
deriving Repr, DecidableEq

/-- `Structured::raw` (`structured.rs` lines 13-18). -/
def Structured.mkRaw (raw : List Nat) : Structured :=
  { raw := raw, relations := [] }

/-- `Structured::sanitize` / `sanitize_buffer` body (`structured.rs` lines 146-164):
apply every enabled relation in order to the buffer. -/
def sanitizeList : List Relation → List Nat → Option (List Nat)
  | [], buf => some buf
  | r :: rest, buf =>
    if r.enabled then (r.apply buf).bind (sanitizeList rest) else sanitizeList rest buf

/-- The strict edit loop shared by `Structured::insert` / `remove` / `on_insert`
(`structured.rs` lines 37-68, 86-102): walk the relation list, skip disabled
relations, apply `step` to enabled ones, and return early with `false` on the
first rejection — relations already processed keep their updates. -/
def strictLoop (step : Relation → Option (Bool × Relation)) :
    List Relation → Option (Bool × List Relation)
  | [] => some (true, [])
  | r :: rest =>
    if r.enabled then
      (step r).bind fun br =>
        if br.1 then (strictLoop step rest).map fun bl => (bl.1, br.2 :: bl.2)
        else some (false, br.2 :: rest)
    else
      (strictLoop step rest).map fun bl => (bl.1, r :: bl.2)

/-- Insert `data` at `idx` into `raw` (`Vec::splice(idx..idx, data)`); callers
guard the `idx > len` panic separately. -/
def spliceAt (raw : List Nat) (idx : Nat) (data : List Nat) : List Nat :=
  raw.take idx ++ data ++ raw.drop idx

/-- `Structured::insert` (`structured.rs` lines 37-53): propagate `on_insert` to
every enabled relation with early return on rejection, then splice the bytes in
and sanitize.  `some (false, s')` is the `Err(())` outcome with post-state `s'`. -/
def Structured.insert (s : Structured) (idx : Nat) (data : List Nat) :
    Option (Bool × Structured) :=
  (strictLoop (fun r => r.on_insert idx data.length) s.relations).bind fun bl =>
    if bl.1 then
      if idx ≤ s.raw.length then
        (sanitizeList bl.2 (spliceAt s.raw idx data)).map fun raw2 =>
          (true, { raw := raw2, relations := bl.2 })
      else none
    else some (false, { raw := s.raw, relations := bl.2 })

/-- `Structured::remove` (`structured.rs` lines 86-102): propagate `on_remove`
with early return on rejection, then drain `idx..idx+n` and sanitize. -/
def Structured.remove (s : Structured) (idx n : Nat) : Option (Bool × Structured) :=
  (strictLoop (fun r => r.on_remove idx n) s.relations).bind fun bl =>
    if bl.1 then
      if idx + n ≤ s.raw.length then
        (sanitizeList bl.2 (s.raw.take idx ++ s.raw.drop (idx + n))).map fun raw2 =>
          (true, { raw := raw2, relations := bl.2 })
      else none
    else some (false, { raw := s.raw, relations := bl.2 })

/-- `Structured::on_insert` (`structured.rs` lines 56-68): bookkeeping only,
no byte change. -/
def Structured.on_insert (s : Structured) (idx n : Nat) : Option (Bool × Structured) :=
  (strictLoop (fun r => r.on_insert idx n) s.relations).map fun bl =>
    (bl.1, { raw := s.raw, relations := bl.2 })

/-- The marking loop of `insert_disabling` / `remove_disabling`
(`structured.rs` lines 105-114, 126-135): every relation keeps its (possibly
updated) state; the flag records whether its index was pushed onto `disabled`
(`false` = pushed, i.e. the edit was rejected). -/
def markEdits (step : Relation → Option (Bool × Relation)) :
    List Relation → Option (List (Bool × Relation))
  | [] => some []
  | r :: rest =>
    if r.enabled then
      (step r).bind fun br => (markEdits step rest).map fun rest2 => br :: rest2
    else
      (markEdits step rest).map fun rest2 => (true, r) :: rest2

/-- Indices (counting from `k`) of the `false`-flagged entries, in ascending
order — the `disabled` vector of `insert_disabling` / `remove_disabling`. -/
def falseIndices : List (Bool × Relation) → Nat → List Nat
  | [], _ => []
  | br :: rest, k =>
    if br.1 then falseIndices rest (k + 1) else k :: falseIndices rest (k + 1)

/-- `Vec::swap_remove(i)`: replace slot `i` by the last element and pop;
`none` models the out-of-bounds panic. -/
def swapRemoveAt (l : List Relation) (i : Nat) : Option (List Relation) :=
  if i < l.length then some ((l.set i (l.getD (l.length - 1) default)).dropLast)
  else none

/-- Fold `swap_remove` over a list of indices (the
`for i in disabled.iter().rev()` loop). -/
def swapRemoveAll : List Relation → List Nat → Option (List Relation)
  | l, [] => some l
  | l, i :: rest => (swapRemoveAt l i).bind fun l2 => swapRemoveAll l2 rest

/-- Shared tail of `insert_disabling` / `remove_disabling`: swap-remove the
rejecting relations (largest index first) and sanitize the already edited bytes. -/
def applyDisabling (marked : List (Bool × Relation)) (raw1 : List Nat) :
    Option Structured :=
  (swapRemoveAll (marked.map Prod.snd) (falseIndices marked 0).reverse).bind fun rels2 =>
    (sanitizeList rels2 raw1).map fun raw2 => { raw := raw2, relations := rels2 }

/-- `Structured::insert_disabling` (`structured.rs` lines 104-123): mark
rejecting relations, splice the bytes in unconditionally, swap-remove the
rejecting relations, sanitize. -/
def Structured.insert_disabling (s : Structured) (idx : Nat) (data : List Nat) :
    Option Structured :=
  (markEdits (fun r => r.on_insert idx data.length) s.relations).bind fun marked =>
    if idx ≤ s.raw.length then applyDisabling marked (spliceAt s.raw idx data)
    else none

/-- `Structured::remove_disabling` (`structured.rs` lines 125-144): mark
rejecting relations, drain `idx..idx+n` unconditionally, swap-remove the
rejecting relations, sanitize. -/
def Structured.remove_disabling (s : Structured) (idx n : Nat) : Option Structured :=
  (markEdits (fun r => r.on_remove idx n) s.relations).bind fun marked =>
    if idx + n ≤ s.raw.length then
      applyDisabling marked (s.raw.take idx ++ s.raw.drop (idx + n))
    else none

/-- `StructuredInput` (`structured_input.rs` lines 12-17), restricted to the
fields the load path constructs (`status` is always `New` and `seed` 0 there). -/
structure StructuredInput where
  input : Structured
deriving Repr, DecidableEq

/-- `StructuredInput::new_raw` (`structured_input.rs` lines 28-34). -/
def StructuredInput.new_raw (bytes : List Nat) : StructuredInput :=
  { input := Structured.mkRaw bytes }

/-- `StructuredInput::new_structured` (`structured_input.rs` lines 36-42). -/
def StructuredInput.new_structured (s : Structured) : StructuredInput :=
  { input := s }

/-- `StructuredInput::from_file` (`structured_input.rs` lines 90-113), with the
file system abstracted away: `sidecar` is `none` when the `.<name>.annotated`
file does not exist, and `some outcome` when it exists, where `outcome` is the
combined result of `read_to_string` and `serde_json::from_str` (`Except.error`
when either step fails — both are propagated with `?`).  `rawBytes` is the
content of the main file. -/
def StructuredInput.from_file (sidecar : Option (Except Unit Structured))
    (rawBytes : List Nat) : Except Unit StructuredInput :=
  match sidecar with
  | some outcome =>
    match outcome with
    | Except.ok s => Except.ok (StructuredInput.new_structured s)
    | Except.error e => Except.error e
  | none => Except.ok (StructuredInput.new_raw rawBytes)

/-- The corrupted candidate value set at `search.rs` line 249
(`potential.value = curr_size + shift_amount`) before the anchor search runs;
`potential.value` still holds this sum inside every `check_anchor` call
(it is only reset to `curr_size` at line 315, after the anchor search). -/
def corruptedValue (curr_size shift_amount : Nat) : Nat :=
  curr_size + shift_amount

/-- `SearchContext::check_anchor` (`search.rs` lines 335-357) up to the point
where the scratch buffer is probed: computes `ins = anchor + potential.value
- shift_amount` (line 336) and applies the three guards that can skip the probe
(insertion out of bounds, anchor out of bounds / already visited, and the
`Structured::on_insert` coherence check).  Returns the insertion offset that
actually gets probed, or `none` when the candidate is skipped. -/
def checkAnchorProbe (s : Structured) (seedLen anchor potential_value shift_amount : Nat)
    (visited : Bool) : Option Nat :=
  if anchor + potential_value - shift_amount > seedLen then none
  else if anchor ≥ seedLen ∨ visited then none
  else
    match s.on_insert (anchor + potential_value - shift_amount) shift_amount with
    | some (true, _) => some (anchor + potential_value - shift_amount)
    | _ => none

/-- The Scenario A relation `{pos=1, size=1, le=true, value=4, anchor=2, insert=6}`. -/
def relA : Relation := Relation.new 1 4 1 true 2 6

/-- The Scenario A result: raw bytes `01 04 41 41 41 41 FF FF` with `relA`. -/
def sA : Structured :=
  { raw := [0x01, 0x04, 0x41, 0x41, 0x41, 0x41, 0xFF, 0xFF], relations := [relA] }

/-- State of `relA` after `remove_disabling(0, 1)`: shifted left, still enabled. -/
def relC3 : Relation :=
  { pos := 0, value := 4, size := 1, le := true, anchor := 1, insert := 5,
    enabled := true, old_pos := 1, old_anchor := 2, old_insert := 6, old_value := 4 }

/-- State of `relA` after `insert_disabling(6, [0x42, 0x42])`: value 6, insert 8. -/
def relC9 : Relation :=
  { pos := 1, value := 6, size := 1, le := true, anchor := 2, insert := 8,
    enabled := true, old_pos := 1, old_anchor := 2, old_insert := 6, old_value := 4 }

/-- A buffer with one width-1 relation holding value `250` over range `[0, 1)`
(the shape of the repository's own `test_oob_relation` unit test). -/
def sC1 : Structured := { raw := [0x41], relations := [Relation.new 0 250 1 true 0 1] }

/-- Post-state of `sC1` after the failing `insert(0, [0x41; 10])`: the strict
insert returns `Err` but the relation's `value` was already bumped to `260`. -/
def sC1bad : Structured :=
  { raw := [0x41],
    relations := [{ pos := 0, value := 260, size := 1, le := true, anchor := 0,
                    insert := 1, enabled := true, old_pos := 0, old_anchor := 0,
                    old_insert := 1, old_value := 250 }] }

/-- A relation violating the data-model invariant `anchor ≤ insert`
(`anchor = 5 > 3 = insert`). -/
def rBad : Relation := Relation.new 10 0 1 true 5 3

/-- `rBad` after the successful `on_insert(4, 1)`. -/
def rBad' : Relation :=
  { pos := 11, value := 0, size := 1, le := true, anchor := 6, insert := 3,
    enabled := true, old_pos := 10, old_anchor := 5, old_insert := 3, old_value := 0 }

/-- A two-byte buffer with one enabled width-2 relation covering bytes `[0, 2)`. -/
def s2 : Structured := { raw := [0, 0], relations := [Relation.new 0 7 2 true 0 2] }

/-- The relation of the repository's `test_insert_size1` unit test. -/
def relW7 : Relation := Relation.new 4 8 4 true 8 16

/-- `relW7` after the successful `on_insert(0, 1)`. -/
def relW7' : Relation :=
  { pos := 5, value := 8, size := 4, le := true, anchor := 9, insert := 17,
    enabled := true, old_pos := 4, old_anchor := 8, old_insert := 16, old_value := 8 }

/-! ## Shared lemmas -/

/-- `Relation.on_insert` never changes `size`, `le` or `enabled`. -/
theorem on_insert_preserves (r r' : Relation) (idx n : Nat) (b : Bool)
    (h : r.on_insert idx n = some (b, r')) :
    r'.size = r.size ∧ r'.le = r.le ∧ r'.enabled = r.enabled := by
  unfold Relation.on_insert at h
  split at h
  · simp only [Option.some.injEq, Prod.mk.injEq] at h
    obtain ⟨hb, hr⟩ := h
    subst hr; exact ⟨rfl, rfl, rfl⟩
  · split at h
    · split at h
      · exact absurd h (by simp)
      · split at h
        · simp only [Option.some.injEq, Prod.mk.injEq] at h
          obtain ⟨hb, hr⟩ := h
          subst hr; exact ⟨rfl, rfl, rfl⟩
        · simp only [Option.some.injEq, Prod.mk.injEq] at h
          obtain ⟨hb, hr⟩ := h
          subst hr; simp [Relation.moveFields]
    · simp only [Option.some.injEq, Prod.mk.injEq] at h
      obtain ⟨hb, hr⟩ := h
      subst hr; simp [Relation.moveFields]

/-- `Relation.on_remove` never changes `size`, `le` or `enabled`. -/
theorem on_remove_preserves (r r' : Relation) (idx n : Nat) (b : Bool)
    (h : r.on_remove idx n = some (b, r')) :
    r'.size = r.size ∧ r'.le = r.le ∧ r'.enabled = r.enabled := by
  unfold Relation.on_remove at h
  split at h
  · simp only [Option.some.injEq, Prod.mk.injEq] at h
    obtain ⟨hb, hr⟩ := h
    subst hr; exact ⟨rfl, rfl, rfl⟩
  · split at h
    · split at h
      · simp only [Option.some.injEq, Prod.mk.injEq] at h
        obtain ⟨hb, hr⟩ := h
        subst hr; exact ⟨rfl, rfl, rfl⟩
      · simp only [Option.some.injEq, Prod.mk.injEq] at h
        obtain ⟨hb, hr⟩ := h
        subst hr; exact ⟨rfl, rfl, rfl⟩
    · exact absurd h (by simp)

/-- `strictLoop` keeps the list length and every relation's `size`, `le` and
`enabled` fields, whatever the outcome flag is (only bookkeeping offsets of
already-processed relations may have changed on early rejection). -/
theorem strictLoop_map_proj (step : Relation → Option (Bool × Relation))
    (hstep : ∀ r b r', step r = some (b, r') →
      r'.size = r.size ∧ r'.le = r.le ∧ r'.enabled = r.enabled) :
    ∀ (rels rels' : List Relation) (b : Bool),
      strictLoop step rels = some (b, rels') →
      rels'.map (fun r => (r.size, r.le, r.enabled)) =
        rels.map (fun r => (r.size, r.le, r.enabled)) := by
  intro rels
  induction rels with
  | nil =>
    intro rels' b h
    simp only [strictLoop, Option.some.injEq, Prod.mk.injEq] at h
    simp [← h.2]
  | cons r rest ih =>
    intro rels' b h
    simp only [strictLoop] at h
    split at h
    · cases hstep_r : step r with
      | none => rw [hstep_r] at h; exact absurd h (by simp)
      | some br =>
        obtain ⟨b1, r1⟩ := br
        have hproj := hstep r b1 r1 hstep_r
        rw [hstep_r] at h
        simp only [Option.some_bind] at h
        split at h
        · cases hrec : strictLoop step rest with
          | none => rw [hrec] at h; exact absurd h (by simp)
          | some bl =>
            rw [hrec] at h
            simp only [Option.map_some', Option.some.injEq, Prod.mk.injEq] at h
            obtain ⟨hb, hl⟩ := h
            subst hl
            simp only [List.map_cons, hproj.1, hproj.2.1, hproj.2.2]
            rw [ih bl.2 bl.1 (by rw [hrec])]
        · simp only [Option.some.injEq, Prod.mk.injEq] at h
          obtain ⟨hb, hl⟩ := h
          subst hl
          simp [List.map_cons, hproj.1, hproj.2.1, hproj.2.2]
    · cases hrec : strictLoop step rest with
      | none => rw [hrec] at h; exact absurd h (by simp)
      | some bl =>
        rw [hrec] at h
        simp only [Option.map_some', Option.some.injEq, Prod.mk.injEq] at h
        obtain ⟨hb, hl⟩ := h
        subst hl
        simp only [List.map_cons]
        rw [ih bl.2 bl.1 (by rw [hrec])]

/-! ## C3 — Scenario C (`remove_disabling(0, 1)` on the Scenario A result) -/

/-- C3 counterexample: the claim says the relation is left *disabled* after
`remove_disabling(0, 1)`; in fact the edit removes byte 0 (the `01` prefix
byte, not the length byte, which sits at `pos = 1`), the relation absorbs the
shift and stays enabled. -/
theorem C3_counterexample :
    (Structured.remove_disabling sA 0 1).map (fun s => s.relations.map Relation.enabled) =
      some [true] := by decide

/-- C3 (amended): `remove_disabling(0, 1)` on the Scenario A result yields raw
`04 41 41 41 41 FF FF`, and the relation survives *enabled* with its
bookkeeping shifted one byte left (`pos=0`, `anchor=1`, `insert=5`, `value=4`). -/
theorem C3_remove_disabling_scenario :
    Structured.remove_disabling sA 0 1 =
      some { raw := [0x04, 0x41, 0x41, 0x41, 0x41, 0xFF, 0xFF], relations := [relC3] } ∧
    relC3.enabled = true := by decide

/-! ## C9 — Scenario B (`insert_disabling(6, [0x42, 0x42])` on the Scenario A result) -/

/-- C9: `insert_disabling(6, [0x42, 0x42])` on the Scenario A result yields raw
`01 06 41 41 41 41 42 42 FF FF`, with the relation still enabled, its `value`
equal to 6 and its `insert` equal to 8 — exactly as the spec's Scenario B says. -/
theorem C9_insert_disabling_scenario :
    Structured.insert_disabling sA 6 [0x42, 0x42] =
      some { raw := [0x01, 0x06, 0x41, 0x41, 0x41, 0x41, 0x42, 0x42, 0xFF, 0xFF],
             relations := [relC9] } ∧
    relC9.enabled = true ∧ relC9.value = 6 ∧ relC9.insert = 8 := by decide

/-! ## C5 — `StructuredInput::from_file` with an unparseable sidecar -/

/-- C5 counterexample: with a sidecar that exists but fails to parse, `from_file`
returns the propagated error — it does *not* behave like the absent-sidecar
case, which returns the raw bytes as a relation-free buffer. -/
theorem C5_counterexample :
    StructuredInput.from_file (some (Except.error ())) [1, 2, 3] = Except.error () ∧
    StructuredInput.from_file none [1, 2, 3] =
      Except.ok (StructuredInput.new_raw [1, 2, 3]) :=
  ⟨rfl, rfl⟩

/-- C5 (amended): when the sidecar exists but reading or parsing it fails,
`from_file` propagates that failure as an error (the `?` operator on
`read_to_string` / `serde_json::from_str`); the raw-bytes fallback happens
only when the sidecar file is absent. -/
theorem C5_from_file_error :
    ∀ (e : Unit) (rawBytes : List Nat),
      StructuredInput.from_file (some (Except.error e)) rawBytes = Except.error e := by
  intro e rawBytes
  rfl

/-! ## C4 — the insertion offset probed by `check_anchor` -/

/-- C4 counterexample: with decoded value `cur_val = 40` and shift `0x20`, the
probed insertion offset is `anchor + cur_val = 42`, not
`anchor + cur_val - shift = 10` as the claim states. -/
theorem C4_counterexample :
    checkAnchorProbe (Structured.mkRaw (List.replicate 64 0)) 64 2
        (corruptedValue 40 0x20) 0x20 false = some 42 ∧
    (42 : Nat) ≠ 2 + 40 - 0x20 := by decide

/-- C4 (amended): during the anchor search `potential.value` holds the
*corrupted* value `cur_val + shift`, so the insertion offset computed at
`search.rs` line 336 and probed by `check_anchor` equals `anchor + cur_val`
(the spec's `anchor + cur_val - shift` is off by `shift`). -/
theorem C4_probe_offset :
    ∀ (s : Structured) (seedLen anchor cur shift : Nat) (vis : Bool) (ins : Nat),
      checkAnchorProbe s seedLen anchor (corruptedValue cur shift) shift vis = some ins →
      ins = anchor + cur := by
  intro s seedLen anchor cur shift vis ins h
  unfold checkAnchorProbe corruptedValue at h
  split at h
  · exact absurd h (by simp)
  · split at h
    · exact absurd h (by simp)
    · split at h
      · simp only [Option.some.injEq] at h
        omega
      · exact absurd h (by simp)

/-- C4 witness: the amended theorem applied at a concrete probe (`anchor = 2`,
`cur_val = 40`, `shift = 0x20`) whose probed offset evaluates to `42 = 2 + 40`. -/
theorem C4_witness : (42 : Nat) = 2 + 40 :=
  C4_probe_offset (Structured.mkRaw (List.replicate 64 0)) 64 2 40 0x20 false 42 (by decide)

/-! ## C10 — per-relation atomicity of `on_remove` on failure -/

/-- C10: whenever `Relation::on_remove(idx, n)` returns `Err`, the relation is
left exactly as it was — both `Err` arms (field overlap, and
`insert_overlap > value`) return before any field is written. -/
theorem C10_on_remove_err_atomic :
    ∀ (r r' : Relation) (idx n : Nat),
      r.on_remove idx n = some (false, r') → r' = r := by
  intro r r' idx n h
  unfold Relation.on_remove at h
  split at h
  · simp only [Option.some.injEq, Prod.mk.injEq] at h
    exact h.2.symm
  · split at h
    · split at h
      · simp only [Option.some.injEq, Prod.mk.injEq] at h
        exact h.2.symm
      · exact absurd h (by simp)
    · exact absurd h (by simp)

/-- C10 witness: `on_remove(4, 1)` overlaps the field of the repository's
`test_remove_size1` relation, returns `Err`, and leaves it unchanged. -/
theorem C10_witness : Relation.new 4 8 4 true 8 16 = Relation.new 4 8 4 true 8 16 :=
  C10_on_remove_err_atomic (Relation.new 4 8 4 true 8 16)
    (Relation.new 4 8 4 true 8 16) 4 1 (by decide)

/-! ## C1 — strict `insert` / `remove` are *not* atomic on failure -/

/-- C1 counterexample: `insert(0, [0x41; 10])` on a buffer whose single
relation holds `value = 250` in a width-1 field fails (overflow), yet the
relation's `value` was already bumped to `260` — the buffer is not left
unchanged, refuting the no-partial-mutation claim. -/
theorem C1_counterexample :
    Structured.insert sC1 0 (List.replicate 10 0x41) = some (false, sC1bad) ∧
    sC1bad.relations.map Relation.value = [260] ∧
    sC1.relations.map Relation.value = [250] := by decide

/-- C1 (amended): when strict `insert` or `remove` fails, the raw bytes are
unchanged, no relation is added or removed, and every relation keeps its
`size`, `le` and `enabled` fields; but the bookkeeping offsets (`pos`,
`anchor`, `insert`, `value`) of relations processed before the rejection — and
the `value` of a relation failing the width-overflow check — may already have
been updated: the failure is not atomic. -/
theorem C1_strict_fail_not_atomic :
    ∀ (s : Structured) (idx n : Nat) (data : List Nat) (s' : Structured),
      (Structured.insert s idx data = some (false, s') →
        s'.raw = s.raw ∧
        s'.relations.map (fun r => (r.size, r.le, r.enabled)) =
          s.relations.map (fun r => (r.size, r.le, r.enabled))) ∧
      (Structured.remove s idx n = some (false, s') →
        s'.raw = s.raw ∧
        s'.relations.map (fun r => (r.size, r.le, r.enabled)) =
          s.relations.map (fun r => (r.size, r.le, r.enabled))) := by
  intro s idx n data s'
  constructor
  · intro h
    unfold Structured.insert at h
    cases hloop : strictLoop (fun r => r.on_insert idx data.length) s.relations with
    | none => rw [hloop] at h; exact absurd h (by simp)
    | some bl =>
      rw [hloop] at h
      simp only [Option.some_bind] at h
      split at h
      · split at h
        · cases hsan : sanitizeList bl.2 (spliceAt s.raw idx data) with
          | none => rw [hsan] at h; exact absurd h (by simp)
          | some raw2 =>
            rw [hsan] at h
            simp only [Option.map_some', Option.some.injEq, Prod.mk.injEq] at h
            exact absurd h.1 (by simp)
        · exact absurd h (by simp)
      · simp only [Option.some.injEq, Prod.mk.injEq] at h
        obtain ⟨hb, hs⟩ := h
        subst hs
        exact ⟨rfl, strictLoop_map_proj _ (fun r b r' hr => on_insert_preserves r r' idx data.length b hr) s.relations bl.2 bl.1 (by rw [hloop])⟩
  · intro h
    unfold Structured.remove at h
    cases hloop : strictLoop (fun r => r.on_remove idx n) s.relations with
    | none => rw [hloop] at h; exact absurd h (by simp)
    | some bl =>
      rw [hloop] at h
      simp only [Option.some_bind] at h
      split at h
      · split at h
        · cases hsan : sanitizeList bl.2 (s.raw.take idx ++ s.raw.drop (idx + n)) with
          | none => rw [hsan] at h; exact absurd h (by simp)
          | some raw2 =>
            rw [hsan] at h
            simp only [Option.map_some', Option.some.injEq, Prod.mk.injEq] at h
            exact absurd h.1 (by simp)
        · exact absurd h (by simp)
      · simp only [Option.some.injEq, Prod.mk.injEq] at h
        obtain ⟨hb, hs⟩ := h
        subst hs
        exact ⟨rfl, strictLoop_map_proj _ (fun r b r' hr => on_remove_preserves r r' idx n b hr) s.relations bl.2 bl.1 (by rw [hloop])⟩

/-- C1 witness: the amended theorem applied to the concrete failing insert of
the counterexample input. -/
theorem C1_witness :
    sC1bad.raw = sC1.raw ∧
    sC1bad.relations.map (fun r => (r.size, r.le, r.enabled)) =
      sC1.relations.map (fun r => (r.size, r.le, r.enabled)) :=
  (C1_strict_fail_not_atomic sC1 0 0 (List.replicate 10 0x41) sC1bad).1 (by decide)

/-! ## C7 — insert/remove round trip on relations -/

/-- C7 counterexample: for the relation `rBad` (which has `anchor = 5 > 3 =
insert`, violating the data-model invariant `anchor ≤ insert`),
`on_insert(4, 1)` succeeds, but `on_remove(4, 1)` on the result panics inside
`usize::clamp` (`assert!(min <= max)`) instead of yielding the original —
so the round trip does not hold for *every* relation. -/
theorem C7_counterexample :
    rBad.on_insert 4 1 = some (true, rBad') ∧ rBad'.on_remove 4 1 = none := by decide

set_option maxHeartbeats 1000000 in
/-- C7 (amended): for every relation satisfying the data-model invariant
`anchor ≤ insert`, if `on_insert(idx, n)` succeeds then `on_remove(idx, n)` on
the updated relation succeeds and restores the original relation exactly. -/
theorem C7_insert_remove_roundtrip :
    ∀ (r r' : Relation) (idx n : Nat),
      r.anchor ≤ r.insert →
      r.on_insert idx n = some (true, r') →
      r'.on_remove idx n = some (true, r) := by
  intro r r' idx n hai h
  obtain ⟨pos, value, size, le, anchor, ins, en, op, oa, oi, ov⟩ := r
  simp only at hai
  unfold Relation.on_insert at h
  simp only [Relation.moveFields] at h
  split at h
  · exact absurd h (by simp)
  · split at h
    · split at h
      · exact absurd h (by simp)
      · split at h
        · exact absurd h (by simp)
        · simp only [Option.some.injEq, Prod.mk.injEq, true_and] at h
          subst h
          unfold Relation.on_remove clampRust
          simp only
          split_ifs <;>
            first
              | (exfalso; omega)
              | (dsimp only
                 rw [if_neg (by omega)]
                 simp only [Option.some.injEq, Prod.mk.injEq, Relation.mk.injEq,
                   true_and, and_true]
                 omega)
    · simp only [Option.some.injEq, Prod.mk.injEq, true_and] at h
      subst h
      unfold Relation.on_remove clampRust
      simp only
      split_ifs <;>
        first
          | (exfalso; omega)
          | (dsimp only
             rw [if_neg (by omega)]
             simp only [Option.some.injEq, Prod.mk.injEq, Relation.mk.injEq,
               true_and, and_true]
             omega)

/-- C7 witness: the round trip at the repository's `test_insert_size1`
relation with `on_insert(0, 1)`. -/
theorem C7_witness : relW7'.on_remove 0 1 = some (true, relW7) :=
  C7_insert_remove_roundtrip relW7 relW7' 0 1 (by decide) (by decide)

/-! ## C8 — `apply` / re-decode round trip -/

theorem leBytes_length (v k : Nat) : (leBytes v k).length = k := by
  induction k generalizing v with
  | zero => rfl
  | succ k ih => simp [leBytes, ih]

theorem beBytes_length (v k : Nat) : (beBytes v k).length = k := by
  simp [beBytes, leBytes_length]

/-- Little-endian decode inverts little-endian encode up to the width. -/
theorem decodeLE_leBytes (k v : Nat) : decodeLE (leBytes v k) = v % 2 ^ (8 * k) := by
  induction k generalizing v with
  | zero => simp [leBytes, decodeLE, Nat.mod_one]
  | succ k ih =>
    calc decodeLE (leBytes v (k + 1))
        = v % 256 % 256 + 256 * decodeLE (leBytes (v / 256) k) := rfl
      _ = v % 256 + 256 * (v / 256 % 2 ^ (8 * k)) := by
          rw [Nat.mod_mod_of_dvd _ dvd_rfl, ih]
      _ = v % (256 * 2 ^ (8 * k)) := (Nat.mod_mul).symm
      _ = v % 2 ^ (8 * (k + 1)) := by ring_nf

theorem decodeBytes_leBytes (k v : Nat) : decodeBytes true (leBytes v k) = v % 2 ^ (8 * k) := by
  simp [decodeBytes, decodeLE_leBytes]

theorem decodeBytes_beBytes (k v : Nat) : decodeBytes false (beBytes v k) = v % 2 ^ (8 * k) := by
  simp [decodeBytes, beBytes, decodeLE_leBytes]

theorem leBytes_one_rev (v : Nat) : (leBytes v 1).reverse = leBytes v 1 := by
  simp [leBytes]

/-- For every supported `(size, le)` pair, `relBytes` produces exactly `size`
bytes whose re-decode in the relation's endianness is `value mod 2^(8·size)`. -/
theorem decode_relBytes (r : Relation)
    (h : r.size = 1 ∨ r.size = 2 ∨ r.size = 3 ∨ r.size = 4 ∨ r.size = 8) :
    ∃ byt, r.relBytes = some byt ∧ byt.length = r.size ∧
      decodeBytes r.le byt = r.value % 2 ^ (8 * r.size) := by
  cases hle : r.le with
  | true =>
    rcases h with h | h | h | h | h <;>
      exact ⟨leBytes r.value r.size,
        by simp [Relation.relBytes, h, hle],
        by simp [leBytes_length],
        by exact decodeBytes_leBytes r.size r.value⟩
  | false =>
    rcases h with h | h | h | h | h
    · exact ⟨leBytes r.value r.size,
        by simp [Relation.relBytes, h, hle],
        by simp [leBytes_length],
        by rw [h]; simp [decodeBytes, leBytes_one_rev, decodeLE_leBytes]⟩
    all_goals
      exact ⟨beBytes r.value r.size,
        by simp [Relation.relBytes, h, hle],
        by simp [beBytes_length],
        by exact decodeBytes_beBytes r.size r.value⟩

/-- Overwriting `buf[p .. p+|byt|]` with `byt` keeps the length, keeps the
bytes outside the window, and the window reads back as `byt`. -/
theorem writeAt_spec (buf byt : List Nat) (p : Nat) (h : p + byt.length ≤ buf.length) :
    (writeAt buf p byt).length = buf.length ∧
    (writeAt buf p byt).take p = buf.take p ∧
    (writeAt buf p byt).drop (p + byt.length) = buf.drop (p + byt.length) ∧
    ((writeAt buf p byt).drop p).take byt.length = byt := by
  have hp : p ≤ buf.length := le_trans (Nat.le_add_right p byt.length) h
  have htake : (buf.take p).length = p := by
    rw [List.length_take]; omega
  refine ⟨?_, ?_, ?_, ?_⟩
  · simp [writeAt, List.length_drop, htake]
    omega
  · rw [writeAt, List.append_assoc, List.take_left' htake]
  · rw [writeAt, show buf.take p ++ byt ++ buf.drop (p + byt.length) =
        (buf.take p ++ byt) ++ buf.drop (p + byt.length) from by simp [List.append_assoc]]
    rw [List.drop_left' (by rw [List.length_append, htake])]
  · rw [writeAt, List.append_assoc, List.drop_left' htake,
        List.take_left' rfl]

/-- C8 counterexample: a width-1 relation whose `value = 256` does not fit the
field; `apply` writes the truncated byte `0x00` and re-decoding yields `0`,
not the stored value `256` — so the claim fails for relations whose value
exceeds the field width. -/
theorem C8_counterexample :
    (Relation.new 0 256 1 true 0 1).apply [7] = some [0] ∧
    decodeBytes true [0] = 0 ∧
    (Relation.new 0 256 1 true 0 1).value = 256 ∧ (0 : Nat) ≠ 256 := by decide

/-- C8 (amended): for every supported `(size, le)` combination (sizes 1, 2, 3,
4, 8) and a buffer long enough to hold the field, `apply(buf)` writes exactly
`size` bytes into `buf[pos..pos+size]` (bytes outside that window and the
length are unchanged), and re-decoding those bytes in the relation's
endianness yields the stored value *modulo `2^(8·size)`* — equal to the
stored value exactly when the value fits the field width. -/
theorem C8_apply_roundtrip :
    ∀ (r : Relation) (buf : List Nat),
      (r.size = 1 ∨ r.size = 2 ∨ r.size = 3 ∨ r.size = 4 ∨ r.size = 8) →
      r.pos + r.size ≤ buf.length →
      ∃ buf', r.apply buf = some buf' ∧
        buf'.length = buf.length ∧
        buf'.take r.pos = buf.take r.pos ∧
        buf'.drop (r.pos + r.size) = buf.drop (r.pos + r.size) ∧
        decodeBytes r.le ((buf'.drop r.pos).take r.size) = r.value % 2 ^ (8 * r.size) ∧
        (r.value < 2 ^ (8 * r.size) →
          decodeBytes r.le ((buf'.drop r.pos).take r.size) = r.value) := by
  intro r buf hsize hfit
  obtain ⟨byt, hbyt, hlen, hdec⟩ := decode_relBytes r hsize
  have hfit' : r.pos + byt.length ≤ buf.length := by rw [hlen]; exact hfit
  obtain ⟨hL, hT, hD, hS⟩ := writeAt_spec buf byt r.pos hfit'
  refine ⟨writeAt buf r.pos byt, ?_, hL, hT, ?_, ?_, ?_⟩
  · simp [Relation.apply, hbyt, hfit]
  · rw [hlen] at hD; exact hD
  · rw [hlen] at hS; rw [hS]; exact hdec
  · intro hvfit
    rw [hlen] at hS
    rw [hS, hdec, Nat.mod_eq_of_lt hvfit]

/-- C8 witness: the amended theorem at the width-1 relation storing value 4 at
position 0 of the buffer `[7]`. -/
theorem C8_witness :
    ((Relation.new 0 4 1 true 0 1).size = 1 ∨ (Relation.new 0 4 1 true 0 1).size = 2 ∨
     (Relation.new 0 4 1 true 0 1).size = 3 ∨ (Relation.new 0 4 1 true 0 1).size = 4 ∨
     (Relation.new 0 4 1 true 0 1).size = 8) ∧
    (∃ buf', (Relation.new 0 4 1 true 0 1).apply [7] = some buf' ∧
      buf'.length = [7].length ∧
      buf'.take (Relation.new 0 4 1 true 0 1).pos = [7].take (Relation.new 0 4 1 true 0 1).pos ∧
      buf'.drop ((Relation.new 0 4 1 true 0 1).pos + (Relation.new 0 4 1 true 0 1).size) =
        [7].drop ((Relation.new 0 4 1 true 0 1).pos + (Relation.new 0 4 1 true 0 1).size) ∧
      decodeBytes (Relation.new 0 4 1 true 0 1).le
          ((buf'.drop (Relation.new 0 4 1 true 0 1).pos).take (Relation.new 0 4 1 true 0 1).size) =
        (Relation.new 0 4 1 true 0 1).value % 2 ^ (8 * (Relation.new 0 4 1 true 0 1).size) ∧
      ((Relation.new 0 4 1 true 0 1).value < 2 ^ (8 * (Relation.new 0 4 1 true 0 1).size) →
        decodeBytes (Relation.new 0 4 1 true 0 1).le
            ((buf'.drop (Relation.new 0 4 1 true 0 1).pos).take (Relation.new 0 4 1 true 0 1).size) =
          (Relation.new 0 4 1 true 0 1).value)) :=
  ⟨by decide, C8_apply_roundtrip (Relation.new 0 4 1 true 0 1) [7] (by decide) (by decide)⟩

/-! ## Machinery for the `*_disabling` edits (claims C2 and C6) -/

theorem dropLast_getD (l : List Relation) (j : Nat) (h : j < l.length - 1) :
    l.dropLast.getD j default = l.getD j default := by
  rw [List.dropLast_eq_take, List.getD_eq_getElem?_getD, List.getD_eq_getElem?_getD]
  simp only [List.getElem?_take, h, if_pos]

theorem swapRemoveAt_spec (l : List Relation) (i : Nat) (h : i < l.length) :
    ∃ l', swapRemoveAt l i = some l' ∧
      List.Perm (l.getD i default :: l') l ∧
      l'.length = l.length - 1 ∧
      ∀ j, j < i → l'.getD j default = l.getD j default := by
  refine ⟨(l.set i (l.getD (l.length - 1) default)).dropLast,
    by rw [swapRemoveAt, if_pos h], ?_, ?_, ?_⟩
  · -- permutation
    have hset : l.set i (l.getD (l.length - 1) default) =
        l.take i ++ l.getD (l.length - 1) default :: l.drop (i + 1) := by
      rw [List.set_eq_take_append_cons_drop, if_pos h]
    rcases Nat.lt_or_ge i (l.length - 1) with hi | hi
    · -- i strictly before the last slot
      have hlast : l.length - 1 < l.length := by omega
      have hdropne : l.drop (i + 1) ≠ [] := by
        intro he
        have := List.drop_eq_nil_iff.mp he
        omega
      have hdl : (l.set i (l.getD (l.length - 1) default)).dropLast =
          l.take i ++ l.getD (l.length - 1) default :: (l.drop (i + 1)).dropLast := by
        rw [hset, show l.getD (l.length - 1) default :: l.drop (i + 1) =
              [l.getD (l.length - 1) default] ++ l.drop (i + 1) from rfl,
            ← List.append_assoc,
            List.dropLast_append_of_ne_nil _ hdropne, List.append_assoc]
        rfl
      have hlx : (l.drop (i + 1)).getLast hdropne = l.getD (l.length - 1) default := by
        rw [List.getLast_eq_getElem, List.getElem_drop,
            List.getD_eq_getElem l default hlast]
        congr 1
        rw [List.length_drop]
        omega
      have hdecomp : l.drop (i + 1) =
          (l.drop (i + 1)).dropLast ++ [l.getD (l.length - 1) default] := by
        conv_lhs => rw [← List.dropLast_append_getLast hdropne]
        rw [hlx]
      have hl : l = l.take i ++ l.getD i default ::
          ((l.drop (i + 1)).dropLast ++ [l.getD (l.length - 1) default]) := by
        conv_lhs => rw [← List.take_append_drop i l]
        rw [List.drop_eq_getElem_cons h, ← hdecomp, List.getD_eq_getElem l default h]
      rw [hdl]
      have p1 : List.Perm
          (l.getD i default :: (l.take i ++ l.getD (l.length - 1) default :: (l.drop (i + 1)).dropLast))
          (l.take i ++ l.getD i default :: (l.getD (l.length - 1) default :: (l.drop (i + 1)).dropLast)) :=
        List.perm_middle.symm
      have p2 : List.Perm
          (l.getD (l.length - 1) default :: (l.drop (i + 1)).dropLast)
          ((l.drop (i + 1)).dropLast ++ [l.getD (l.length - 1) default]) :=
        @List.perm_append_comm _ [l.getD (l.length - 1) default] (l.drop (i + 1)).dropLast
      have p3 := (p2.cons (l.getD i default)).append_left (l.take i)
      conv_rhs => rw [hl]
      exact p1.trans p3
    · -- i is the last slot
      have hii : i = l.length - 1 := by omega
      have hdrop : l.drop (i + 1) = [] := by
        rw [List.drop_eq_nil_iff]
        omega
      have hdl : (l.set i (l.getD (l.length - 1) default)).dropLast = l.take i := by
        rw [hset, hdrop]
        exact List.dropLast_concat
      have hl : l = l.take i ++ [l.getD i default] := by
        conv_lhs => rw [← List.take_append_drop i l]
        rw [List.drop_eq_getElem_cons h, hdrop, List.getD_eq_getElem l default h]
      rw [hdl]
      have p1 : List.Perm (l.getD i default :: l.take i) (l.take i ++ [l.getD i default]) :=
        @List.perm_append_comm _ [l.getD i default] (l.take i)
      conv_rhs => rw [hl]
      exact p1
  · rw [List.length_dropLast, List.length_set]
  · intro j hj
    have hj1 : j < (l.set i (l.getD (l.length - 1) default)).length - 1 := by
      rw [List.length_set]
      omega
    rw [dropLast_getD _ _ hj1]
    rw [List.getD_eq_getElem?_getD, List.getElem?_set_ne (by omega),
        ← List.getD_eq_getElem?_getD]

theorem swapRemoveAll_spec :
    ∀ (idxs : List Nat) (l : List Relation),
      List.Pairwise (· > ·) idxs →
      (∀ i ∈ idxs, i < l.length) →
      ∃ l', swapRemoveAll l idxs = some l' ∧
        List.Perm (idxs.map (fun i => l.getD i default) ++ l') l ∧
        l'.length + idxs.length = l.length := by
  intro idxs
  induction idxs with
  | nil =>
    intro l _ _
    exact ⟨l, rfl, by simp, by simp⟩
  | cons i rest ih =>
    intro l hpw hbound
    have hi : i < l.length := hbound i (by simp)
    obtain ⟨l1, he1, hp1, hlen1, hpre1⟩ := swapRemoveAt_spec l i hi
    have hrest_lt : ∀ j ∈ rest, j < i := fun j hj => (List.pairwise_cons.mp hpw).1 j hj
    have hbound1 : ∀ j ∈ rest, j < l1.length := by
      intro j hj
      have := hrest_lt j hj
      omega
    obtain ⟨l2, he2, hp2, hlen2⟩ := ih l1 (List.pairwise_cons.mp hpw).2 hbound1
    have hmap : rest.map (fun j => l1.getD j default) = rest.map (fun j => l.getD j default) :=
      List.map_congr_left fun j hj => hpre1 j (hrest_lt j hj)
    refine ⟨l2, ?_, ?_, by simp; omega⟩
    · rw [swapRemoveAll, he1, Option.some_bind]
      exact he2
    · have : List.Perm ((i :: rest).map (fun j => l.getD j default) ++ l2)
          (l.getD i default :: (rest.map (fun j => l1.getD j default) ++ l2)) := by
        rw [hmap]
        simp [List.map_cons]
      exact this.trans ((hp2.cons (l.getD i default)).trans hp1)

theorem falseIndices_bounds :
    ∀ (m : List (Bool × Relation)) (k : Nat), ∀ i ∈ falseIndices m k, k ≤ i ∧ i < k + m.length := by
  intro m
  induction m with
  | nil => intro k i hi; simp [falseIndices] at hi
  | cons br rest ih =>
    intro k i hi
    rw [falseIndices] at hi
    split at hi
    · have := ih (k + 1) i hi
      simp only [List.length_cons]
      omega
    · rcases List.mem_cons.mp hi with h | h
      · simp only [List.length_cons]
        omega
      · have := ih (k + 1) i h
        simp only [List.length_cons]
        omega

theorem falseIndices_pairwise :
    ∀ (m : List (Bool × Relation)) (k : Nat), List.Pairwise (· < ·) (falseIndices m k) := by
  intro m
  induction m with
  | nil => intro k; simp [falseIndices]
  | cons br rest ih =>
    intro k
    rw [falseIndices]
    split
    · exact ih (k + 1)
    · exact List.pairwise_cons.mpr
        ⟨fun i hi => by have := (falseIndices_bounds rest (k + 1) i hi).1; omega, ih (k + 1)⟩

theorem falseIndices_map_getD :
    ∀ (m front : List (Bool × Relation)),
      (falseIndices m front.length).map
          (fun i => ((front ++ m).map Prod.snd).getD i default) =
        (m.filter (fun br => !br.1)).map Prod.snd := by
  intro m
  induction m with
  | nil => intro front; simp [falseIndices]
  | cons br rest ih =>
    intro front
    have hfront : ((front ++ br :: rest).map Prod.snd).getD front.length default = br.2 := by
      rw [List.map_append, List.getD_append_right _ _ _ _ (by simp)]
      simp [List.getD]
    have hstep : ∀ (i : Nat), i ∈ falseIndices rest (front.length + 1) →
        ((front ++ br :: rest).map Prod.snd).getD i default =
        (((front ++ [br]) ++ rest).map Prod.snd).getD i default := by
      intro i hi
      have : front ++ br :: rest = (front ++ [br]) ++ rest := by simp
      rw [this]
    rw [falseIndices]
    split
    · rename_i hb
      have h1 : front.length + 1 = (front ++ [br]).length := by simp
      rw [List.filter_cons, if_neg (by simp [hb])]
      calc (falseIndices rest (front.length + 1)).map
            (fun i => ((front ++ br :: rest).map Prod.snd).getD i default)
          = (falseIndices rest (front.length + 1)).map
            (fun i => (((front ++ [br]) ++ rest).map Prod.snd).getD i default) :=
            List.map_congr_left (fun i hi => hstep i hi)
        _ = (rest.filter (fun x => !x.1)).map Prod.snd := by
            rw [h1]; exact ih (front ++ [br])
    · rename_i hb
      have hb' : br.1 = false := by
        cases hbb : br.1 with
        | true => exact absurd hbb hb
        | false => rfl
      have h1 : front.length + 1 = (front ++ [br]).length := by simp
      rw [List.filter_cons, if_pos (by simp [hb'])]
      simp only [List.map_cons, List.map_cons]
      rw [hfront]
      congr 1
      calc (falseIndices rest (front.length + 1)).map
            (fun i => ((front ++ br :: rest).map Prod.snd).getD i default)
          = (falseIndices rest (front.length + 1)).map
            (fun i => (((front ++ [br]) ++ rest).map Prod.snd).getD i default) :=
            List.map_congr_left (fun i hi => hstep i hi)
        _ = (rest.filter (fun x => !x.1)).map Prod.snd := by
            rw [h1]; exact ih (front ++ [br])

theorem markEdits_elems (step : Relation → Option (Bool × Relation)) :
    ∀ (rels : List Relation) (marked : List (Bool × Relation)),
      markEdits step rels = some marked →
      ∀ br ∈ marked,
        (∃ r ∈ rels, r.enabled = false ∧ br = (true, r)) ∨
        (∃ r ∈ rels, r.enabled = true ∧ step r = some br) := by
  intro rels
  induction rels with
  | nil =>
    intro marked h br hbr
    simp [markEdits] at h
    subst h
    simp at hbr
  | cons r rest ih =>
    intro marked h br hbr
    rw [markEdits] at h
    split at h
    · rename_i hen
      cases hstep : step r with
      | none => rw [hstep] at h; exact absurd h (by simp)
      | some br0 =>
        rw [hstep] at h
        simp only [Option.some_bind] at h
        cases hrec : markEdits step rest with
        | none => rw [hrec] at h; exact absurd h (by simp)
        | some rest2 =>
          rw [hrec] at h
          simp only [Option.map_some', Option.some.injEq] at h
          subst h
          rcases List.mem_cons.mp hbr with hbr | hbr
          · subst hbr
            exact Or.inr ⟨r, by simp, hen, hstep⟩
          · rcases ih rest2 hrec br hbr with ⟨r0, hr0, h1, h2⟩ | ⟨r0, hr0, h1, h2⟩
            · exact Or.inl ⟨r0, by simp [hr0], h1, h2⟩
            · exact Or.inr ⟨r0, by simp [hr0], h1, h2⟩
    · rename_i hen
      cases hrec : markEdits step rest with
      | none => rw [hrec] at h; exact absurd h (by simp)
      | some rest2 =>
        rw [hrec] at h
        simp only [Option.map_some', Option.some.injEq] at h
        subst h
        rcases List.mem_cons.mp hbr with hbr | hbr
        · subst hbr
          exact Or.inl ⟨r, by simp, by simpa using hen, rfl⟩
        · rcases ih rest2 hrec br hbr with ⟨r0, hr0, h1, h2⟩ | ⟨r0, hr0, h1, h2⟩
          · exact Or.inl ⟨r0, by simp [hr0], h1, h2⟩
          · exact Or.inr ⟨r0, by simp [hr0], h1, h2⟩

theorem markEdits_total (step : Relation → Option (Bool × Relation)) :
    ∀ (rels : List Relation),
      (∀ r ∈ rels, r.enabled = true → ∃ br, step r = some br) →
      ∃ marked, markEdits step rels = some marked ∧ marked.length = rels.length := by
  intro rels
  induction rels with
  | nil => intro _; exact ⟨[], rfl, rfl⟩
  | cons r rest ih =>
    intro h
    obtain ⟨rest2, hrec, hlen⟩ := ih (fun r0 hr0 => h r0 (by simp [hr0]))
    by_cases hen : r.enabled = true
    · obtain ⟨br, hbr⟩ := h r (by simp) hen
      exact ⟨br :: rest2, by rw [markEdits, if_pos hen, hbr, Option.some_bind, hrec]; rfl,
        by simp [hlen]⟩
    · exact ⟨(true, r) :: rest2, by rw [markEdits, if_neg hen, hrec]; rfl, by simp [hlen]⟩

/-- `on_remove` cannot panic on a relation satisfying `anchor ≤ insert`. -/
theorem on_remove_total (r : Relation) (idx n : Nat) (h : r.anchor ≤ r.insert) :
    ∃ br, r.on_remove idx n = some br := by
  rw [Relation.on_remove]
  rw [← Option.isSome_iff_exists]
  split
  · rfl
  · rw [clampRust, if_pos h, clampRust, if_pos h]
    simp [apply_ite Option.isSome]

/-- An accepted `on_remove` keeps the (shifted) field inside the shrunk buffer. -/
theorem on_remove_ok_bound (r r' : Relation) (idx n L : Nat)
    (h : r.on_remove idx n = some (true, r'))
    (hidx : idx + n ≤ L) (hfit : r.pos + r.size ≤ L) :
    r'.pos + r'.size ≤ L - n := by
  have hsz := (on_remove_preserves r r' idx n true h).1
  rw [Relation.on_remove] at h
  split at h
  · exact absurd h (by simp)
  · rename_i hov
    split at h
    · split at h
      · exact absurd h (by simp)
      · simp only [Option.some.injEq, Prod.mk.injEq, true_and] at h
        subst h
        simp only at hsz ⊢
        split_ifs <;> omega
    · exact absurd h (by simp)

theorem getD_take_eq (l l2 : List Nat) (p j d : Nat) (h : l.take p = l2.take p) (hj : j < p) :
    l.getD j d = l2.getD j d := by
  have h1 : (l.take p).getD j d = l.getD j d := by
    rw [List.getD_eq_getElem?_getD, List.getD_eq_getElem?_getD]
    simp [List.getElem?_take, hj]
  have h2 : (l2.take p).getD j d = l2.getD j d := by
    rw [List.getD_eq_getElem?_getD, List.getD_eq_getElem?_getD]
    simp [List.getElem?_take, hj]
  rw [← h1, ← h2, h]

theorem getD_drop_eq (l l2 : List Nat) (q j d : Nat) (h : l.drop q = l2.drop q) (hj : q ≤ j) :
    l.getD j d = l2.getD j d := by
  have h1 : (l.drop q).getD (j - q) d = l.getD j d := by
    rw [List.getD_eq_getElem?_getD, List.getD_eq_getElem?_getD]
    rw [List.getElem?_drop]
    congr 2
    omega
  have h2 : (l2.drop q).getD (j - q) d = l2.getD j d := by
    rw [List.getD_eq_getElem?_getD, List.getD_eq_getElem?_getD]
    rw [List.getElem?_drop]
    congr 2
    omega
  rw [← h1, ← h2, h]

/-- `Relation::apply` succeeds on a well-formed relation, preserves the buffer
length, and only touches `buf[pos .. pos+size]`. -/
theorem apply_spec (r : Relation) (buf : List Nat)
    (hsize : r.size = 1 ∨ r.size = 2 ∨ r.size = 3 ∨ r.size = 4 ∨ r.size = 8)
    (hfit : r.pos + r.size ≤ buf.length) :
    ∃ buf', r.apply buf = some buf' ∧ buf'.length = buf.length ∧
      ∀ j, (j < r.pos ∨ r.pos + r.size ≤ j) → buf'.getD j 0 = buf.getD j 0 := by
  obtain ⟨byt, hbyt, hlen, _⟩ := decode_relBytes r hsize
  have hfit' : r.pos + byt.length ≤ buf.length := by rw [hlen]; exact hfit
  obtain ⟨hL, hT, hD, _⟩ := writeAt_spec buf byt r.pos hfit'
  refine ⟨writeAt buf r.pos byt, by simp [Relation.apply, hbyt, hfit], hL, ?_⟩
  intro j hj
  rcases hj with hj | hj
  · exact getD_take_eq _ _ r.pos j 0 hT hj
  · rw [hlen] at hD
    exact getD_drop_eq _ _ (r.pos + r.size) j 0 hD hj

/-- `sanitize` succeeds when every enabled relation is well-formed for the
buffer, preserves the length, and only rewrites bytes inside enabled
relations' fields. -/
theorem sanitizeList_spec :
    ∀ (rels : List Relation) (buf : List Nat),
      (∀ r ∈ rels, r.enabled = true →
        ((r.size = 1 ∨ r.size = 2 ∨ r.size = 3 ∨ r.size = 4 ∨ r.size = 8) ∧
          r.pos + r.size ≤ buf.length)) →
      ∃ buf', sanitizeList rels buf = some buf' ∧ buf'.length = buf.length ∧
        ∀ j, (∀ r ∈ rels, r.enabled = true → (j < r.pos ∨ r.pos + r.size ≤ j)) →
          buf'.getD j 0 = buf.getD j 0 := by
  intro rels
  induction rels with
  | nil => intro buf _; exact ⟨buf, rfl, rfl, fun _ _ => rfl⟩
  | cons r rest ih =>
    intro buf hwf
    by_cases hen : r.enabled = true
    · obtain ⟨hsz, hfit⟩ := hwf r (by simp) hen
      obtain ⟨buf1, he1, hlen1, hagree1⟩ := apply_spec r buf hsz hfit
      obtain ⟨buf2, he2, hlen2, hagree2⟩ := ih buf1
        (fun r0 hr0 hen0 => by
          obtain ⟨h1, h2⟩ := hwf r0 (by simp [hr0]) hen0
          exact ⟨h1, by rw [hlen1]; exact h2⟩)
      refine ⟨buf2, ?_, by rw [hlen2, hlen1], ?_⟩
      · rw [sanitizeList, if_pos hen, he1, Option.some_bind]
        exact he2
      · intro j hj
        rw [hagree2 j (fun r0 hr0 hen0 => hj r0 (by simp [hr0]) hen0),
            hagree1 j (hj r (by simp) hen)]
    · obtain ⟨buf2, he2, hlen2, hagree2⟩ := ih buf
        (fun r0 hr0 hen0 => hwf r0 (by simp [hr0]) hen0)
      refine ⟨buf2, ?_, hlen2, ?_⟩
      · rw [sanitizeList, if_neg hen]
        exact he2
      · intro j hj
        exact hagree2 j (fun r0 hr0 hen0 => hj r0 (by simp [hr0]) hen0)

/-- Swap-removing the falsely-flagged indices (largest first) always succeeds
and yields a permutation of the kept (flag-`true`) relations. -/
theorem swapRemoveAll_marked_perm (marked : List (Bool × Relation)) :
    ∃ l2, swapRemoveAll (marked.map Prod.snd) (falseIndices marked 0).reverse = some l2 ∧
      List.Perm l2 ((marked.filter (fun br => br.1)).map Prod.snd) := by
  have hpw : List.Pairwise (· > ·) (falseIndices marked 0).reverse :=
    List.pairwise_reverse.mpr (falseIndices_pairwise marked 0)
  have hbound : ∀ i ∈ (falseIndices marked 0).reverse, i < (marked.map Prod.snd).length := by
    intro i hi
    rw [List.mem_reverse] at hi
    have := (falseIndices_bounds marked 0 i hi).2
    simpa using this
  obtain ⟨l2, he, hperm, hlen⟩ :=
    swapRemoveAll_spec (falseIndices marked 0).reverse (marked.map Prod.snd) hpw hbound
  have hremoved : (falseIndices marked 0).map (fun i => (marked.map Prod.snd).getD i default) =
      (marked.filter (fun br => !br.1)).map Prod.snd :=
    falseIndices_map_getD marked []
  have hperm2 : List.Perm
      (((marked.filter (fun br => !br.1)).map Prod.snd) ++ l2) (marked.map Prod.snd) := by
    refine List.Perm.trans ?_ hperm
    refine List.Perm.append ?_ (List.Perm.refl l2)
    rw [List.map_reverse, hremoved]
    exact ((marked.filter (fun br => !br.1)).map Prod.snd).reverse_perm.symm
  have hsplit : List.Perm
      (((marked.filter (fun br => br.1)).map Prod.snd) ++
        ((marked.filter (fun br => !br.1)).map Prod.snd)) (marked.map Prod.snd) := by
    have := (List.filter_append_perm (fun br => br.1) marked).map Prod.snd
    rw [List.map_append] at this
    exact this
  refine ⟨l2, he, ?_⟩
  have h1 : List.Perm
      (((marked.filter (fun br => !br.1)).map Prod.snd) ++ l2)
      (((marked.filter (fun br => !br.1)).map Prod.snd) ++
        ((marked.filter (fun br => br.1)).map Prod.snd)) :=
    hperm2.trans (hsplit.symm.trans List.perm_append_comm)
  exact (List.perm_append_left_iff _).mp h1

/-- The shared tail of the `*_disabling` edits: swap-removing the rejecting
relations always succeeds, the surviving list is a permutation of the kept
(flag-`true`) relations, and the final sanitize succeeds when the kept enabled
relations are well-formed, touching only their field bytes. -/
theorem applyDisabling_spec (marked : List (Bool × Relation)) (raw1 : List Nat)
    (hwf : ∀ br ∈ marked, br.1 = true → br.2.enabled = true →
      ((br.2.size = 1 ∨ br.2.size = 2 ∨ br.2.size = 3 ∨ br.2.size = 4 ∨ br.2.size = 8) ∧
        br.2.pos + br.2.size ≤ raw1.length)) :
    ∃ s', applyDisabling marked raw1 = some s' ∧
      List.Perm s'.relations ((marked.filter (fun br => br.1)).map Prod.snd) ∧
      s'.raw.length = raw1.length ∧
      ∀ j, (∀ br ∈ marked, br.1 = true → br.2.enabled = true →
            (j < br.2.pos ∨ br.2.pos + br.2.size ≤ j)) →
        s'.raw.getD j 0 = raw1.getD j 0 := by
  obtain ⟨l2, he, hkept⟩ := swapRemoveAll_marked_perm marked
  have hmem : ∀ r ∈ l2, ∃ br ∈ marked, br.1 = true ∧ br.2 = r := by
    intro r hr
    have := hkept.mem_iff.mp hr
    obtain ⟨br, hbr, rfl⟩ := List.mem_map.mp this
    have := List.mem_filter.mp hbr
    exact ⟨br, this.1, by simpa using this.2, rfl⟩
  obtain ⟨buf2, hsan, hslen, hagree⟩ := sanitizeList_spec l2 raw1
    (fun r hr hen => by
      obtain ⟨br, hbrm, hbf, rfl⟩ := hmem r hr
      exact hwf br hbrm hbf hen)
  refine ⟨{ raw := buf2, relations := l2 }, ?_, hkept, hslen, ?_⟩
  · rw [applyDisabling, he, Option.some_bind, hsan, Option.map_some']
  · intro j hj
    exact hagree j (fun r hr hen => by
      obtain ⟨br, hbrm, hbf, rfl⟩ := hmem r hr
      exact hj br hbrm hbf hen)

/-- C2 (amended): for both `insert_disabling` and `remove_disabling`, the
relation list afterwards is a permutation of the kept relations — each
already-disabled relation unchanged plus each accepting enabled relation's
update — while every rejecting enabled relation is *removed from the list*
(`swap_remove`); no relation is ever newly marked `enabled = false`: any
disabled relation in the result was already present in the input list. -/
theorem C2_disabling_drops :
    ∀ (s : Structured) (idx n : Nat) (data : List Nat) (s' : Structured)
      (marked : List (Bool × Relation)),
      (markEdits (fun r => r.on_insert idx data.length) s.relations = some marked →
        Structured.insert_disabling s idx data = some s' →
        List.Perm s'.relations ((marked.filter (fun br => br.1)).map Prod.snd) ∧
        (∀ r' ∈ s'.relations, r'.enabled = false → r' ∈ s.relations)) ∧
      (markEdits (fun r => r.on_remove idx n) s.relations = some marked →
        Structured.remove_disabling s idx n = some s' →
        List.Perm s'.relations ((marked.filter (fun br => br.1)).map Prod.snd) ∧
        (∀ r' ∈ s'.relations, r'.enabled = false → r' ∈ s.relations)) := by
  intro s idx n data s' marked
  obtain ⟨l2, he, hkept⟩ := swapRemoveAll_marked_perm marked
  constructor
  · intro hm hcall
    rw [Structured.insert_disabling, hm, Option.some_bind] at hcall
    split at hcall
    · rw [applyDisabling, he, Option.some_bind] at hcall
      cases hsan : sanitizeList l2 (spliceAt s.raw idx data) with
      | none => rw [hsan] at hcall; exact absurd hcall (by simp)
      | some raw2 =>
        rw [hsan, Option.map_some'] at hcall
        have hs' : s' = { raw := raw2, relations := l2 } := by
          injection hcall with h1
          exact h1.symm
        subst hs'
        refine ⟨hkept, ?_⟩
        intro r' hr' hdis
        have := hkept.mem_iff.mp hr'
        obtain ⟨br, hbr, rfl⟩ := List.mem_map.mp this
        have hbr2 := List.mem_filter.mp hbr
        rcases markEdits_elems _ s.relations marked hm br hbr2.1 with
          ⟨r0, hr0, hen0, heq⟩ | ⟨r0, hr0, hen0, hstep⟩
        · rw [heq]
          exact hr0
        · have := (on_insert_preserves r0 br.2 idx data.length br.1 hstep).2.2
          rw [hdis, hen0] at this
          exact absurd this (by simp)
    · exact absurd hcall (by simp)
  · intro hm hcall
    rw [Structured.remove_disabling, hm, Option.some_bind] at hcall
    split at hcall
    · rw [applyDisabling, he, Option.some_bind] at hcall
      cases hsan : sanitizeList l2 (s.raw.take idx ++ s.raw.drop (idx + n)) with
      | none => rw [hsan] at hcall; exact absurd hcall (by simp)
      | some raw2 =>
        rw [hsan, Option.map_some'] at hcall
        have hs' : s' = { raw := raw2, relations := l2 } := by
          injection hcall with h1
          exact h1.symm
        subst hs'
        refine ⟨hkept, ?_⟩
        intro r' hr' hdis
        have := hkept.mem_iff.mp hr'
        obtain ⟨br, hbr, rfl⟩ := List.mem_map.mp this
        have hbr2 := List.mem_filter.mp hbr
        rcases markEdits_elems _ s.relations marked hm br hbr2.1 with
          ⟨r0, hr0, hen0, heq⟩ | ⟨r0, hr0, hen0, hstep⟩
        · rw [heq]
          exact hr0
        · have := (on_remove_preserves r0 br.2 idx n br.1 hstep).2.2
          rw [hdis, hen0] at this
          exact absurd this (by simp)
    · exact absurd hcall (by simp)

/-- C6 (amended): provided `i + n ≤ len(raw)` and every enabled relation is
well-formed (`anchor ≤ insert`, field inside the buffer, supported width),
`remove_disabling(i, n)` succeeds (never panics); every surviving relation is
an original relation or the `on_remove`-update of an enabled original; and the
raw bytes are the original with the `n` bytes at `i` removed, except that each
surviving enabled relation's value is re-serialised into its field. -/
theorem C6_remove_disabling_total :
    ∀ (s : Structured) (idx n : Nat),
      idx + n ≤ s.raw.length →
      (∀ r ∈ s.relations, r.enabled = true →
        (r.anchor ≤ r.insert ∧ r.pos + r.size ≤ s.raw.length ∧
          (r.size = 1 ∨ r.size = 2 ∨ r.size = 3 ∨ r.size = 4 ∨ r.size = 8))) →
      ∃ s', Structured.remove_disabling s idx n = some s' ∧
        s'.raw.length + n = s.raw.length ∧
        (∀ r' ∈ s'.relations,
          r' ∈ s.relations ∨
          ∃ r ∈ s.relations, r.enabled = true ∧ r.on_remove idx n = some (true, r')) ∧
        (∀ j, (∀ r' ∈ s'.relations, r'.enabled = true → (j < r'.pos ∨ r'.pos + r'.size ≤ j)) →
          s'.raw.getD j 0 = (s.raw.take idx ++ s.raw.drop (idx + n)).getD j 0) := by
  intro s idx n hidx hWF
  obtain ⟨marked, hm, hmlen⟩ := markEdits_total (fun r => r.on_remove idx n) s.relations
    (fun r hr hen => on_remove_total r idx n (hWF r hr hen).1)
  have hraw1len : (s.raw.take idx ++ s.raw.drop (idx + n)).length = s.raw.length - n := by
    rw [List.length_append, List.length_take, List.length_drop]
    omega
  have hwf : ∀ br ∈ marked, br.1 = true → br.2.enabled = true →
      ((br.2.size = 1 ∨ br.2.size = 2 ∨ br.2.size = 3 ∨ br.2.size = 4 ∨ br.2.size = 8) ∧
        br.2.pos + br.2.size ≤ (s.raw.take idx ++ s.raw.drop (idx + n)).length) := by
    intro br hbr hflag hen
    rcases markEdits_elems _ s.relations marked hm br hbr with
      ⟨r0, hr0, hen0, heq⟩ | ⟨r0, hr0, hen0, hstep⟩
    · rw [heq] at hen
      simp only at hen
      rw [hen0] at hen
      exact absurd hen (by simp)
    · obtain ⟨ha, hb, hc⟩ := hWF r0 hr0 hen0
      obtain ⟨b, r'⟩ := br
      simp only at hflag
      subst hflag
      have hpres := on_remove_preserves r0 r' idx n true hstep
      refine ⟨by rw [hpres.1]; exact hc, ?_⟩
      rw [hraw1len]
      exact on_remove_ok_bound r0 r' idx n s.raw.length hstep hidx hb
  obtain ⟨s', hcall, hperm, hslen, hagree⟩ :=
    applyDisabling_spec marked (s.raw.take idx ++ s.raw.drop (idx + n)) hwf
  refine ⟨s', ?_, ?_, ?_, ?_⟩
  · rw [Structured.remove_disabling, hm, Option.some_bind, if_pos hidx]
    exact hcall
  · rw [hslen, hraw1len]
    omega
  · intro r' hr'
    have := hperm.mem_iff.mp hr'
    obtain ⟨br, hbr, rfl⟩ := List.mem_map.mp this
    have hbr2 := List.mem_filter.mp hbr
    rcases markEdits_elems _ s.relations marked hm br hbr2.1 with
      ⟨r0, hr0, hen0, heq⟩ | ⟨r0, hr0, hen0, hstep⟩
    · rw [heq]
      exact Or.inl hr0
    · refine Or.inr ⟨r0, hr0, hen0, ?_⟩
      obtain ⟨b, r1⟩ := br
      have : b = true := by simpa using hbr2.2
      subst this
      exact hstep
  · intro j hj
    refine hagree j ?_
    intro br hbr hflag hen
    refine hj br.2 ?_ hen
    rw [hperm.mem_iff]
    exact List.mem_map.mpr ⟨br, List.mem_filter.mpr ⟨hbr, by simpa using hflag⟩, rfl⟩

/-- C2 counterexample: `insert_disabling(1, [0x41])` splits the single enabled
width-2 relation of `s2`; the relation rejects and is *dropped* from the list
(result list empty), not retained with `enabled = false` as the claim states. -/
theorem C2_counterexample :
    (Structured.insert_disabling s2 1 [0x41]).map (fun s' => s'.relations) = some [] ∧
    s2.relations.map Relation.enabled = [true] ∧
    (Relation.on_insert (Relation.new 0 7 2 true 0 2) 1 1).map Prod.fst = some false := by
  decide

/-- C2 witness: the amended theorem applied to the concrete rejecting edit of
the counterexample input. -/
theorem C2_witness :
    List.Perm (Structured.mk [0, 0x41, 0] []).relations
      (([((false : Bool), Relation.new 0 7 2 true 0 2)].filter (fun br => br.1)).map
        Prod.snd) ∧
    (∀ r' ∈ (Structured.mk [0, 0x41, 0] []).relations, r'.enabled = false →
      r' ∈ s2.relations) :=
  (C2_disabling_drops s2 1 0 [0x41] (Structured.mk [0, 0x41, 0] [])
    [(false, Relation.new 0 7 2 true 0 2)]).1 (by decide) (by decide)

/-- C6 counterexample: `remove_disabling(0, 5)` on an empty buffer panics
(`Vec::drain` out of range) instead of succeeding, and on the Scenario A
result `remove_disabling(0, 1)` leaves a relation (`pos = 0`) that is not an
element of the original relation list — both parts of the claim fail. -/
theorem C6_counterexample :
    Structured.remove_disabling (Structured.mkRaw []) 0 5 = none ∧
    (Structured.remove_disabling sA 0 1).map
      (fun s' => s'.relations.all (fun r => sA.relations.contains r)) = some false := by
  decide

/-- C6 witness: the amended theorem applied to `remove_disabling(0, 1)` on the
Scenario A result. -/
theorem C6_witness :
    ∃ s', Structured.remove_disabling sA 0 1 = some s' ∧
      s'.raw.length + 1 = sA.raw.length ∧
      (∀ r' ∈ s'.relations,
        r' ∈ sA.relations ∨
        ∃ r ∈ sA.relations, r.enabled = true ∧ r.on_remove 0 1 = some (true, r')) ∧
      (∀ j, (∀ r' ∈ s'.relations, r'.enabled = true → (j < r'.pos ∨ r'.pos + r'.size ≤ j)) →
        s'.raw.getD j 0 = (sA.raw.take 0 ++ sA.raw.drop (0 + 1)).getD j 0) :=
  C6_remove_disabling_total sA 0 1 (by decide) (by decide)
